import Mathlib

/-!
Verification of the errcheck core against its natural-language specification.

The development shallowly embeds the Go source of the errcheck package:
the embedded-interface resolution walker (walkThroughEmbeddedInterfaces and
its helpers), the call classifier (errorsByArg, callReturnsError, isRecover),
the exclusion decision (ignoreCall), the statement visitor (Visit), and the
aggregation performed by CheckPackages (merge of per-package error lists,
byName ordering, sort).  Go runtime panics and the one potentially
non-terminating loop are made explicit in the result types.
-/

set_option maxRecDepth 4000

/-! ## Part 1: model of the go/types objects used by the interface walker

Types are modelled as a tree.  Method identities (the Id of a types.Func)
are modelled as strings.  An interface node carries its explicit method ids
and the list of embedded (named) interface types, in declaration order.
The underlying type of a named type is stored in the node itself.
-/

inductive GoType where
  | Basic : String → GoType
  | Invalid : GoType
  | Pointer : GoType → GoType
  | Struct : List GoType → GoType
  | Named : String → GoType → GoType
  | Interface : List String → List GoType → GoType

/-- Source maybeDereference: unwrap one level of pointer indirection. -/
def maybeDereference : GoType → GoType
  | .Pointer e => e
  | t => t

/-- Source maybeUnname: replace a named type by its underlying type. -/
def maybeUnname : GoType → GoType
  | .Named _ u => u
  | t => t

def isInterface : GoType → Bool
  | .Interface _ _ => true
  | _ => false

def isInvalid : GoType → Bool
  | .Invalid => true
  | _ => false

/-- Source explicitlyDefinesMethod: membership of the method id in the
explicit method list of an interface node (ExplicitMethod enumeration). -/
def explicitlyDefinesMethod : GoType → String → Bool
  | .Interface ms _, fn => ms.contains fn
  | _, _ => false

mutual
/-- The full (explicit plus inherited) method id set of an interface,
as enumerated by Interface.NumMethods and Interface.Method; a named type
contributes the methods of its underlying interface. -/
def ifaceMethods : GoType → List String
  | .Named _ u => ifaceMethods u
  | .Interface ms embeds => ms ++ ifaceMethodsList embeds
  | _ => []

def ifaceMethodsList : List GoType → List String
  | [] => []
  | e :: rest => ifaceMethods e ++ ifaceMethodsList rest
end

/-- Source definesMethod: membership in the full method set of an
interface value. -/
def definesMethod (t : GoType) (fn : String) : Bool :=
  match t with
  | .Interface _ _ => (ifaceMethods t).contains fn
  | _ => false

/-- A method selection: whether sel.Obj() is a types.Func, the id of that
function, sel.Recv(), and sel.Index(). -/
structure Selection where
  isFunc : Bool
  fnId : String
  recv : GoType
  index : List Nat

/-- The distinct run-time panics the walker can raise. -/
inductive PanicKind where
  | notStruct
  | badIndex
  | sliceBounds
  | assertIface
deriving DecidableEq, Repr

inductive WalkResult where
  | ok : List GoType → WalkResult
  | notApplicable : WalkResult
  | panicked : PanicKind → WalkResult
  | diverge : WalkResult

/-- The inner scan of the embedded interfaces (the for i loop at the bottom
of walkThroughEmbeddedInterfaces).  Each embedded type is first unnamed and
asserted to be an interface; the first one whose full method set contains
the target method is returned.  none models the failed type assertion
(a run-time panic); some none models a completed scan with no match. -/
def scanEmbeds (fn : String) : List GoType → Option (Option GoType)
  | [] => some none
  | e :: rest =>
    match maybeUnname e with
    | .Interface ms embeds =>
        if definesMethod (.Interface ms embeds) fn then some (some e)
        else scanEmbeds fn rest
    | _ => none

theorem scanEmbeds_mem {fn : String} {l : List GoType} {e : GoType}
    (h : scanEmbeds fn l = some (some e)) : e ∈ l := by
  induction l with
  | nil => simp [scanEmbeds] at h
  | cons a rest ih =>
    simp only [scanEmbeds] at h
    split at h
    · split at h
      · simp only [Option.some.injEq] at h
        exact h ▸ List.mem_cons_self a rest
      · exact List.mem_cons_of_mem a (ih h)
    · exact absurd h (by simp)

theorem sizeOf_maybeUnname_le (t : GoType) : sizeOf (maybeUnname t) ≤ sizeOf t := by
  cases t <;> simp [maybeUnname]

/-- The outer for loop of walkThroughEmbeddedInterfaces: keep unwrapping
the current type, stop when the current interface explicitly defines the
method, otherwise descend into the first embedded interface whose full
method set defines it.  A completed scan with no match leaves the state
unchanged, so the Go loop would spin forever: that case is reported as
diverge.  The failed interface type assertions are reported as panics. -/
def walkLoop (fn : String) (t : GoType) (acc : List GoType) : WalkResult :=
  match _h : maybeUnname t with
  | .Interface ms embeds =>
    if explicitlyDefinesMethod (.Interface ms embeds) fn then .ok acc
    else
      match _h2 : scanEmbeds fn embeds with
      | none => .panicked .assertIface
      | some none => .diverge
      | some (some e) => walkLoop fn e (acc ++ [e])
  | _ => .panicked .assertIface
termination_by sizeOf t
decreasing_by
  have hm : e ∈ embeds := scanEmbeds_mem _h2
  have h1 : sizeOf e < sizeOf (GoType.Interface ms embeds) := by
    have := List.sizeOf_lt_of_mem hm
    simp only [GoType.Interface.sizeOf_spec]
    omega
  have h3 : sizeOf (maybeUnname t) ≤ sizeOf t := sizeOf_maybeUnname_le t
  rw [_h] at h3
  omega

/-- The struct-field promotion phase: walk the index path (all but the last
index), at each step unwrapping pointer and name and reading the struct
field, appending each field type to the chain.  The two possible run-time
panics (the expected Struct assertion and a field index out of range) are
explicit errors. -/
def walkFields : GoType → List Nat → List GoType → Except PanicKind (GoType × List GoType)
  | t, [], acc => .ok (t, acc)
  | t, i :: rest, acc =>
    match maybeUnname (maybeDereference t) with
    | .Struct fields =>
      match fields[i]? with
      | some next => walkFields next rest (acc ++ [next])
      | none => .error .badIndex
    | _ => .error .notStruct

/-- Source walkThroughEmbeddedInterfaces.  The empty index slice makes the
Go expression indexes[:len(indexes)-1] panic, reported as sliceBounds. -/
def walkThroughEmbeddedInterfaces (sel : Selection) : WalkResult :=
  if !sel.isFunc then .notApplicable
  else if isInvalid sel.recv then .notApplicable
  else if sel.index = [] then .panicked .sliceBounds
  else
    match walkFields sel.recv sel.index.dropLast [sel.recv] with
    | .error k => .panicked k
    | .ok (t, acc) =>
      if isInterface (maybeUnname t) then walkLoop sel.fnId t acc
      else .notApplicable

/-! Auxiliary definitions used to state the claims about the walker. -/

/-- The type reached after following the field promotion index path,
as a partial function (none when the path does not navigate structs). -/
def fieldTarget : GoType → List Nat → Option GoType
  | t, [] => some t
  | t, i :: rest =>
    match maybeUnname (maybeDereference t) with
    | .Struct fields =>
      match fields[i]? with
      | some next => fieldTarget next rest
      | none => none
    | _ => none

/-- Follows the words of the specification: strip pointer indirection and
named-type aliasing, repeatedly. -/
def specUnwrap : GoType → GoType
  | .Named _ u => specUnwrap u
  | .Pointer e => specUnwrap e
  | t => t

mutual
/-- Well-formedness of an interface tree as go/types guarantees it: every
embedded type unnames to an interface, recursively. -/
def ifaceWF : GoType → Bool
  | .Named _ u => ifaceWF u
  | .Interface _ embeds => ifaceWFList embeds
  | _ => true

def ifaceWFList : List GoType → Bool
  | [] => true
  | e :: rest => isInterface (maybeUnname e) && ifaceWF e && ifaceWFList rest
end

/-- What go/types guarantees about the type reached by the promotion path
of a valid method selection: if it is an interface (after one unnaming)
then the selected method belongs to its full method set and the interface
tree is well formed; the underlying type of a named type is never itself
named; a pointer type reached here never unwraps to an interface (pointer
types to interfaces have empty method sets and cannot be embedded). -/
def reachedOk (t : GoType) (fn : String) : Bool :=
  match maybeUnname t with
  | .Interface ms em =>
      (ifaceMethods (.Interface ms em)).contains fn && ifaceWF (.Interface ms em)
  | .Pointer p => !isInterface (specUnwrap p)
  | .Named _ _ => false
  | _ => true

/-- A valid method selection, as produced by the type checker: the selected
object is a function, the receiver type is not invalid, the index path is
not empty, the promotion path navigates struct fields, and the reached type
satisfies the go/types guarantees. -/
def ValidSelection (sel : Selection) : Prop :=
  sel.isFunc = true ∧ isInvalid sel.recv = false ∧ sel.index ≠ [] ∧
    ∃ t, fieldTarget sel.recv sel.index.dropLast = some t ∧ reachedOk t sel.fnId = true

/-! ## Part 2: model of the checker (errcheck.go, the version with build
tags, per package goroutines and sorted aggregate output)

Token positions (token.Pos) are naturals; the file set translation,
the type map pkg.Types, the uses map pkg.Uses and the file system reads
are supplied by an environment record.  Regular expressions are modelled
extensionally as string predicates, which is all MatchString needs.
-/

/-- token.Position: the fields the checker reads (Offset is never used). -/
structure Position where
  filename : String
  line : Nat
  column : Nat
deriving DecidableEq, Repr

/-- Source uncheckedError: a position and the trimmed source line text. -/
structure UncheckedError where
  pos : Position
  line : String
deriving DecidableEq, Repr

/-- An ast.Ident, identified by its name and position (Go distinguishes
ident nodes by pointer identity; position identifies a node uniquely). -/
structure Ident where
  name : String
  pos : Nat
deriving DecidableEq, Repr

/-- The part of a types.Object the checker consults: whether it is the
predeclared builtin object, and the path of its declaring package
(none models a nil Pkg). -/
structure ObjInfo where
  isBuiltin : Bool
  pkg : Option String
deriving DecidableEq, Repr

/-- The object of a defined (named) type: declaring package and name. -/
structure NamedObj where
  pkg : Option String
  name : String
deriving DecidableEq, Repr

/-- The static result type of a call as the checker sees it in
pkg.Types: a single named type, a tuple whose elements record the object
when the element type is a named type, or anything else (including a
missing map entry). -/
inductive RType where
  | namedT : NamedObj → RType
  | tupleT : List (Option NamedObj) → RType
  | otherT : RType
deriving DecidableEq, Repr

/-- The ast.Expr shapes the checker inspects. -/
inductive Expr where
  | identX : String → Nat → Expr
  | selectorX : Expr → String → Nat → Expr
  | callX : Expr → Nat → Expr
  | assertX : Expr → Bool → Expr
  | otherX : Nat → Expr
deriving DecidableEq, Repr

/-- ast positions: a selector, call or type assertion starts where its
operand starts. -/
def Expr.pos : Expr → Nat
  | .identX _ p => p
  | .selectorX x _ _ => x.pos
  | .callX fn _ => fn.pos
  | .assertX x _ => x.pos
  | .otherX p => p

/-- The ast.Node shapes the Visit method reacts to. -/
inductive Stmt where
  | exprStmt : Expr → Stmt
  | goStmt : Expr → Nat → Stmt
  | deferStmt : Expr → Nat → Stmt
  | assign : List Expr → List Expr → Stmt
  | otherS : Stmt

/-- The immutable per package environment: type map, uses map, position
translation and file contents (none models a failing os.Open). -/
structure Env where
  typeOf : Expr → RType
  uses : Ident → Option ObjInfo
  posOf : Nat → Position
  fsLines : String → Option (List String)

/-- The checker configuration: the ignore map (nonexistent key modelled
as none) and the blank and asserts flags. -/
structure Config where
  ignore : String → Option (String → Bool)
  blank : Bool
  asserts : Bool

/-- The mutable checker state: the lines cache and the error list. -/
structure CState where
  lines : List (String × List String)
  errors : List UncheckedError
deriving DecidableEq, Repr

def initState : CState := ⟨[], []⟩

/-- Source isErrorType: a nil declaring package and the name error. -/
def isErrorType (o : NamedObj) : Bool :=
  o.pkg.isNone && o.name == "error"

/-- Source errorsByArg: one boolean per result position. -/
def errorsByArg (env : Env) (call : Expr) : List Bool :=
  match env.typeOf call with
  | .namedT o => [isErrorType o]
  | .tupleT es => es.map (fun e =>
      match e with
      | some o => isErrorType o
      | none => false)
  | .otherT => [false]

/-- Source isRecover: the callee is an identifier whose use resolves to a
builtin object named recover. -/
def isRecover (env : Env) (call : Expr) : Bool :=
  match call with
  | .callX (.identX n p) _ =>
    match env.uses ⟨n, p⟩ with
    | some obj => if obj.isBuiltin then n == "recover" else false
    | none => false
  | _ => false

/-- Source callReturnsError: recover, or any true classification slot. -/
def callReturnsError (env : Env) (call : Expr) : Bool :=
  if isRecover env call then true
  else (errorsByArg env call).any (fun b => b)

/-- Source ignoreCall: extract an identifier from the callee (plain
identifier or selector), try the unqualified regex, then the regex of the
declaring package of the resolved object.  The catch-all false arm mirrors
the other callee shapes (slice or index expressions). -/
def ignoreCall (env : Env) (cfg : Config) (call : Expr) : Bool :=
  match call with
  | .callX fn _ =>
    let id? : Option Ident :=
      match fn with
      | .identX n p => some ⟨n, p⟩
      | .selectorX _ sn sp => some ⟨sn, sp⟩
      | _ => none
    match id? with
    | none => false
    | some id =>
      let unqualified : Bool :=
        match cfg.ignore "" with
        | some re => re id.name
        | none => false
      if unqualified then true
      else
        match env.uses id with
        | some obj =>
          match obj.pkg with
          | some pkgPath =>
            match cfg.ignore pkgPath with
            | some re => re id.name
            | none => false
          | none => false
        | none => false
  | _ => false

/-- Source readfile: the scanned lines, nil when the file cannot be
opened. -/
def readfileM (env : Env) (name : String) : List String :=
  (env.fsLines name).getD []

def cacheLookup : List (String × List String) → String → Option (List String)
  | [], _ => none
  | (f, ls) :: rest, n => if f == n then some ls else cacheLookup rest n

/-- Source addErrorAtPosition: translate the token position, fetch the
file lines through the per checker cache, and append an uncheckedError
with the trimmed line text, or ?? when the line is out of range.  The
line numbers produced by a file set are one based, so the Nat subtraction
pos.line - 1 agrees with the Go int arithmetic. -/
def addErrorAtPosition (env : Env) (s : CState) (p : Nat) : CState :=
  let pos := env.posOf p
  let found :=
    match cacheLookup s.lines pos.filename with
    | some ls => (ls, s.lines)
    | none =>
      let ls := readfileM env pos.filename
      (ls, (pos.filename, ls) :: s.lines)
  let line :=
    if pos.line - 1 < found.1.length then (found.1.getD (pos.line - 1) "").trim
    else "??"
  ⟨found.2, s.errors ++ [⟨pos, line⟩]⟩

/-- The loop over the left hand targets of an assignment with a single
call on the right: a blank target is flagged when the call is recover or
its classification slot is true; reading the slot out of range is the Go
run-time panic, reported as none. -/
def blankLoop (env : Env) (call : Expr) (isError : List Bool) :
    Nat → CState → List Expr → Option CState
  | _, s, [] => some s
  | i, s, l :: rest =>
    match l with
    | .identX name npos =>
      if name == "_" then
        if isRecover env call then
          blankLoop env call isError (i + 1) (addErrorAtPosition env s npos) rest
        else
          match isError[i]? with
          | some b =>
            if b then blankLoop env call isError (i + 1) (addErrorAtPosition env s npos) rest
            else blankLoop env call isError (i + 1) s rest
          | none => none
      else blankLoop env call isError (i + 1) s rest
    | _ => blankLoop env call isError (i + 1) s rest

/-- The loop over 1:1 pairs of a multi expression assignment; reading
Rhs[i] out of range is the Go run-time panic, reported as none. -/
def multiLoop (env : Env) (cfg : Config) (rhs : List Expr) :
    Nat → CState → List Expr → Option CState
  | _, s, [] => some s
  | i, s, l :: rest =>
    match l with
    | .identX name npos =>
      match rhs[i]? with
      | none => none
      | some r =>
        match r with
        | .callX fn lp =>
          if !cfg.blank then multiLoop env cfg rhs (i + 1) s rest
          else if ignoreCall env cfg (.callX fn lp) then multiLoop env cfg rhs (i + 1) s rest
          else if name == "_" && callReturnsError env (.callX fn lp) then
            multiLoop env cfg rhs (i + 1) (addErrorAtPosition env s npos) rest
          else multiLoop env cfg rhs (i + 1) s rest
        | .assertX _ hasType =>
          if !cfg.asserts then multiLoop env cfg rhs (i + 1) s rest
          else if !hasType then multiLoop env cfg rhs (i + 1) s rest
          else multiLoop env cfg rhs (i + 1) (addErrorAtPosition env s npos) rest
        | _ => multiLoop env cfg rhs (i + 1) s rest
    | _ => multiLoop env cfg rhs (i + 1) s rest

/-- Source checker.Visit, one node step of the depth first walk. -/
def Visit (env : Env) (cfg : Config) (s : CState) (node : Stmt) : Option CState :=
  match node with
  | .exprStmt x =>
    match x with
    | .callX fn lp =>
      if !ignoreCall env cfg (.callX fn lp) && callReturnsError env (.callX fn lp) then
        some (addErrorAtPosition env s lp)
      else some s
    | _ => some s
  | .goStmt fn lp =>
    if !ignoreCall env cfg (.callX fn lp) && callReturnsError env (.callX fn lp) then
      some (addErrorAtPosition env s lp)
    else some s
  | .deferStmt fn lp =>
    if !ignoreCall env cfg (.callX fn lp) && callReturnsError env (.callX fn lp) then
      some (addErrorAtPosition env s lp)
    else some s
  | .assign lhs rhs =>
    match rhs with
    | [r] =>
      match r with
      | .callX fn lp =>
        if !cfg.blank then some s
        else if ignoreCall env cfg (.callX fn lp) then some s
        else blankLoop env (.callX fn lp) (errorsByArg env (.callX fn lp)) 0 s lhs
      | .assertX x hasType =>
        if !cfg.asserts then some s
        else if !hasType then some s
        else if lhs.length < 2 then some (addErrorAtPosition env s (Expr.assertX x hasType).pos)
        else
          match lhs[1]? with
          | some (Expr.identX name npos) =>
            if cfg.blank && name == "_" then some (addErrorAtPosition env s npos)
            else some s
          | _ => some s
      | _ => some s
    | _ => multiLoop env cfg rhs 0 s lhs
  | .otherS => some s

/-- The traversal of one syntax tree: the sequence of nodes met by
ast.Walk, visited in order. -/
def runUnit (env : Env) (cfg : Config) : CState → List Stmt → Option CState
  | s, [] => some s
  | s, st :: rest =>
    match Visit env cfg s st with
    | none => none
    | some s2 => runUnit env cfg s2 rest

/-- Source byName.Less: filename, then line, then column, then the
rendered line text. -/
def byNameLess (a b : UncheckedError) : Bool :=
  if a.pos.filename ≠ b.pos.filename then decide (a.pos.filename < b.pos.filename)
  else if a.pos.line ≠ b.pos.line then decide (a.pos.line < b.pos.line)
  else if a.pos.column ≠ b.pos.column then decide (a.pos.column < b.pos.column)
  else decide (a.line < b.line)

/-- The ordering sort.Sort establishes for the Less above: no later
element is strictly less than an earlier one. -/
def byNameLe (a b : UncheckedError) : Prop := byNameLess b a = false

instance : DecidableRel byNameLe := fun a b =>
  inferInstanceAs (Decidable (byNameLess b a = false))

/-- One initial package of the loaded program: its path, its type and
position environment and the node sequences of its files. -/
structure PackageUnit where
  path : String
  env : Env
  files : List (List Stmt)

/-- The program as returned by loadcfg.Load. -/
structure LoadedProgram where
  packages : List PackageUnit

/-- The three outcomes CheckPackages exposes: the load error string, an
UncheckedErrors value, or nil. -/
inductive CheckOutcome where
  | fatal : String → CheckOutcome
  | findings : List UncheckedError → CheckOutcome
  | clean : CheckOutcome

def outcomeDiagnostics : CheckOutcome → List UncheckedError
  | .fatal _ => []
  | .findings es => es
  | .clean => []

def runFiles (env : Env) (cfg : Config) : CState → List (List Stmt) → Option CState
  | s, [] => some s
  | s, f :: rest =>
    match runUnit env cfg s f with
    | none => none
    | some s2 => runFiles env cfg s2 rest

/-- The work of one package goroutine: a fresh checker (empty cache and
error list) walks every file of the package. -/
def runPackage (cfg : Config) (p : PackageUnit) : Option (List UncheckedError) :=
  (runFiles p.env cfg initState p.files).map (fun s => s.errors)

/-- The collection of all per package error lists, in package order (one
linearization of the goroutine interleavings; appending an empty list is
the identity, so the len(visitor.errors) > 0 guard is absorbed).  Packages
with path unsafe are skipped.  none propagates a visitor panic. -/
def collectErrs (cfg : Config) : List PackageUnit → Option (List UncheckedError)
  | [] => some []
  | p :: rest =>
    if p.path == "unsafe" then collectErrs cfg rest
    else
      match runPackage cfg p, collectErrs cfg rest with
      | some es, some rest2 => some (es ++ rest2)
      | _, _ => none

/-- Source CheckPackages, from the point where the loader has produced its
result: a load error is wrapped and returned at once; otherwise every
initial package is visited, the error lists are merged and, when any
errors exist, sorted under byName and returned as UncheckedErrors. -/
def CheckPackages (loadResult : Except String LoadedProgram)
    (ignore : String → Option (String → Bool)) (blank asserts : Bool) :
    Option CheckOutcome :=
  match loadResult with
  | .error e => some (.fatal ("could not type check: " ++ e))
  | .ok prog =>
    match collectErrs ⟨ignore, blank, asserts⟩ prog.packages with
    | none => none
    | some errs =>
      some (if errs.isEmpty then .clean
            else .findings (List.insertionSort byNameLe errs))

/-! ## Part 3: the call classifier, the exclusion decision and the load
failure path -/

/-- Claim C5: the call classifier is total (it is a Lean function) and
case-complete: a single named result type yields one boolean that is true
exactly when the type is the predeclared error interface (a defined type
with no declaring package and the name error); a tuple yields one boolean
per element, true exactly when the element is such a named type; every
other statically known type yields the one element false. -/
theorem isErrorType_iff (o : NamedObj) :
    isErrorType o = decide (o.pkg = none ∧ o.name = "error") := by
  cases o with
  | mk p n => cases p <;> by_cases h : n = "error" <;> simp [isErrorType, h]

theorem errorsByArg_spec (env : Env) (call : Expr) :
    (∀ o : NamedObj, env.typeOf call = RType.namedT o →
        errorsByArg env call = [decide (o.pkg = none ∧ o.name = "error")]) ∧
    (∀ es : List (Option NamedObj), env.typeOf call = RType.tupleT es →
        (errorsByArg env call).length = es.length ∧
        (∀ (i : Nat) (o : NamedObj), es[i]? = some (some o) →
            (errorsByArg env call)[i]? = some (decide (o.pkg = none ∧ o.name = "error"))) ∧
        (∀ i : Nat, es[i]? = some none → (errorsByArg env call)[i]? = some false)) ∧
    (env.typeOf call = RType.otherT → errorsByArg env call = [false]) := by
  refine ⟨fun o ho => ?_, fun es hes => ?_, fun ho => ?_⟩
  · simp only [errorsByArg, ho]
    rw [isErrorType_iff]
  · simp only [errorsByArg, hes]
    refine ⟨List.length_map _ _, fun i o hi => ?_, fun i hi => ?_⟩
    · rw [List.getElem?_map, hi]
      exact congrArg some (isErrorType_iff o)
    · rw [List.getElem?_map, hi]
      rfl
  · simp [errorsByArg, ho]

def env5 : Env := ⟨fun _ => .tupleT [some ⟨none, "error"⟩, some ⟨some "p", "error"⟩, none],
  fun _ => none, fun _ => ⟨"", 0, 0⟩, fun _ => none⟩

theorem errorsByArg_spec_witness :
    (errorsByArg env5 (.identX "f" 0)).length = 3 ∧
    (errorsByArg env5 (.identX "f" 0))[0]? = some true ∧
    (errorsByArg env5 (.identX "f" 0))[1]? = some false ∧
    (errorsByArg env5 (.identX "f" 0))[2]? = some false := by
  obtain ⟨-, h2, -⟩ := errorsByArg_spec env5 (.identX "f" 0)
  obtain ⟨hlen, hsome, hnone⟩ := h2 _ rfl
  refine ⟨by simpa using hlen, ?_, ?_, by simpa using hnone 2 rfl⟩
  · have := hsome 0 ⟨none, "error"⟩ rfl
    simpa using this
  · have := hsome 1 ⟨some "p", "error"⟩ rfl
    simpa using this

/-- The callee identifier extraction of ignoreCall (the switch over
call.Fun). -/
def calleeIdentOf : Expr → Option Ident
  | .identX n p => some ⟨n, p⟩
  | .selectorX _ sn sp => some ⟨sn, sp⟩
  | _ => none

def ruleMatches (r : Option (String → Bool)) (n : String) : Bool :=
  match r with
  | some re => re n
  | none => false

/-- The exclusion decision as the specification words it, amended: rules
are tried in order with the first match winning; the unqualified regex
applies to the bare name regardless of the declaring package and
regardless of resolution; the package qualified regex is consulted only
for a resolved object with a declaring package; with no identifier, or
when no rule matches, the call is not excluded. -/
def ignoreCallSpec (env : Env) (cfg : Config) (call : Expr) : Bool :=
  match call with
  | .callX fn _ =>
    match calleeIdentOf fn with
    | none => false
    | some id =>
      if ruleMatches (cfg.ignore "") id.name then true
      else
        match env.uses id with
        | some obj =>
          match obj.pkg with
          | some pkgPath => ruleMatches (cfg.ignore pkgPath) id.name
          | none => false
        | none => false
  | _ => false

def envU : Env := ⟨fun _ => .otherT, fun _ => none, fun _ => ⟨"f.go", 1, 1⟩, fun _ => none⟩

def cfgU : Config := ⟨fun k => if k = "" then some (fun _ => true) else none, false, false⟩

/-- Claim C6, counterexample: a callable whose identifier has no
statically known binding (pkg.Uses returns nothing, an unresolved
reference) is nevertheless excluded, because the unqualified regex rule
applies before resolution is ever consulted.  This refutes the part of the
claim stating that an unresolved callable reference is never excluded. -/
theorem ignoreCall_unresolved_counterexample :
    envU.uses ⟨"f", 0⟩ = none ∧
    ignoreCall envU cfgU (.callX (.identX "f" 0) 1) = true := ⟨rfl, rfl⟩

/-- Claim C6, amended: ignoreCall is a pure query equal to the ordered
first match rule evaluation of ignoreCallSpec; a callee with no extractable
identifier is never excluded.  Unresolved references skip only the package
qualified rule: the unqualified regex still applies to their bare name. -/
theorem ignoreCall_rules (env : Env) (cfg : Config) (call : Expr) :
    ignoreCall env cfg call = ignoreCallSpec env cfg call ∧
    (∀ fn lp, call = Expr.callX fn lp → calleeIdentOf fn = none →
        ignoreCall env cfg call = false) := by
  constructor
  · cases call with
    | callX fn lp =>
      cases fn <;> rfl
    | identX n p => rfl
    | selectorX x sn sp => rfl
    | assertX x b => rfl
    | otherX p => rfl
  · rintro fn lp rfl hid
    cases fn <;> simp_all [calleeIdentOf, ignoreCall]

theorem ignoreCall_rules_witness :
    ignoreCall envU cfgU (.callX (.otherX 7) 9) = false := by
  exact (ignoreCall_rules envU cfgU (.callX (.otherX 7) 9)).2 (.otherX 7) 9 rfl rfl

/-- Claim C8: a loader failure is wrapped and returned at once; the
returned outcome carries zero diagnostics, and by construction no package
is visited on this path (the package list is never consulted). -/
theorem CheckPackages_load_failure (e : String)
    (ignore : String → Option (String → Bool)) (blank asserts : Bool) :
    CheckPackages (.error e) ignore blank asserts
      = some (.fatal ("could not type check: " ++ e)) ∧
    outcomeDiagnostics (.fatal ("could not type check: " ++ e)) = [] :=
  ⟨rfl, rfl⟩

/-! ## Part 4: aggregation order and (absence of) deduplication -/

/-- The sort key implicit in byName.Less, as a lexicographic product. -/
def keyOf (e : UncheckedError) : String ×ₗ (Nat ×ₗ (Nat ×ₗ String)) :=
  toLex (e.pos.filename, toLex (e.pos.line, toLex (e.pos.column, e.line)))

theorem byNameLess_iff (a b : UncheckedError) :
    byNameLess a b = true ↔ keyOf a < keyOf b := by
  unfold byNameLess keyOf
  rw [Prod.Lex.lt_iff, Prod.Lex.lt_iff, Prod.Lex.lt_iff]
  split_ifs with h1 h2 h3
  · simp [h1]
  · rw [not_ne_iff] at h1
    simp [h1, h2]
  · rw [not_ne_iff] at h1 h2
    simp [h1, h2, h3]
  · rw [not_ne_iff] at h1 h2 h3
    simp [h1, h2, h3]

theorem byNameLe_iff (a b : UncheckedError) :
    byNameLe a b ↔ keyOf a ≤ keyOf b := by
  show byNameLess b a = false ↔ _
  rw [← not_lt, ← byNameLess_iff]
  exact ⟨fun h => by simp [h], fun h => by simpa using h⟩

instance : IsTotal UncheckedError byNameLe :=
  ⟨fun a b => by rw [byNameLe_iff, byNameLe_iff]; exact le_total _ _⟩

instance : IsTrans UncheckedError byNameLe :=
  ⟨fun a b c hab hbc => by
    rw [byNameLe_iff] at hab hbc ⊢
    exact le_trans hab hbc⟩

def envD : Env := ⟨fun _ => .namedT ⟨none, "error"⟩, fun _ => none,
  fun _ => ⟨"a.go", 3, 4⟩, fun _ => none⟩

def stmtsD : List Stmt := [.exprStmt (.callX (.identX "f" 1) 2)]

def puD : PackageUnit := ⟨"p", envD, [stmtsD]⟩

/-- A program whose initial package list carries the same source twice,
as happens when one package participates in two build configurations. -/
def progD : LoadedProgram := ⟨[puD, puD]⟩

def eD : UncheckedError := ⟨⟨"a.go", 3, 4⟩, "??"⟩

/-- Claim C1, counterexample: the same bare unchecked call visited in two
initial packages yields a returned collection with the identical
diagnostic twice; two elements share (file, line, column) and kind, so
the collection does not hold at most one diagnostic per such key, and no
deduplication happens before the collection is returned. -/
theorem CheckPackages_no_dedup_counterexample :
    CheckPackages (.ok progD) (fun _ => none) false false
      = some (.findings [eD, eD]) ∧
    (outcomeDiagnostics (.findings [eD, eD])).countP
      (fun d => decide (d.pos = eD.pos)) = 2 := by
  have hle : byNameLe eD eD := (byNameLe_iff eD eD).mpr le_rfl
  have hsort : List.insertionSort byNameLe [eD, eD] = [eD, eD] := by
    simp [List.insertionSort, List.orderedInsert, hle]
  constructor
  · simp only [CheckPackages]
    rw [show collectErrs ⟨fun _ => none, false, false⟩ progD.packages
          = some [eD, eD] from rfl]
    simp [hsort]
  · rfl

/-- Claim C1, amended: the aggregate returned by CheckPackages is the
concatenation of the per package diagnostic lists sorted under the byName
order (file path, line, column, rendered line text); it is a permutation
of that concatenation, so exact duplicates arising from multiple build
configurations are preserved, not collapsed. -/
theorem CheckPackages_sorted_no_dedup (prog : LoadedProgram)
    (ignore : String → Option (String → Bool)) (blank asserts : Bool)
    (errs : List UncheckedError)
    (h : collectErrs ⟨ignore, blank, asserts⟩ prog.packages = some errs)
    (hne : errs ≠ []) :
    CheckPackages (.ok prog) ignore blank asserts
      = some (.findings (List.insertionSort byNameLe errs)) ∧
    (List.insertionSort byNameLe errs).Perm errs ∧
    List.Sorted byNameLe (List.insertionSort byNameLe errs) := by
  refine ⟨?_, List.perm_insertionSort _ _, List.sorted_insertionSort _ _⟩
  simp only [CheckPackages]
  rw [h]
  cases errs with
  | nil => exact absurd rfl hne
  | cons a t => rfl

theorem CheckPackages_sorted_no_dedup_witness :
    CheckPackages (.ok progD) (fun _ => none) false false
      = some (.findings (List.insertionSort byNameLe [eD, eD])) ∧
    (List.insertionSort byNameLe [eD, eD]).Perm [eD, eD] ∧
    List.Sorted byNameLe (List.insertionSort byNameLe [eD, eD]) :=
  CheckPackages_sorted_no_dedup progD (fun _ => none) false false [eD, eD] rfl
    (by simp)

/-! ## Part 5: the interface resolution walker -/

theorem ifaceMethods_maybeUnname (t : GoType) :
    ifaceMethods (maybeUnname t) = ifaceMethods t := by
  cases t <;> simp [maybeUnname, ifaceMethods]

theorem ifaceWF_maybeUnname (t : GoType) :
    ifaceWF (maybeUnname t) = ifaceWF t := by
  cases t <;> simp [maybeUnname, ifaceWF]

theorem mem_ifaceMethodsList {fn : String} {l : List GoType} :
    fn ∈ ifaceMethodsList l ↔ ∃ e ∈ l, fn ∈ ifaceMethods e := by
  induction l with
  | nil => simp [ifaceMethodsList]
  | cons a rest ih => simp [ifaceMethodsList, List.mem_append, ih]

theorem ifaceWFList_mem {l : List GoType} {e : GoType}
    (hl : ifaceWFList l = true) (he : e ∈ l) :
    isInterface (maybeUnname e) = true ∧ ifaceWF e = true := by
  induction l with
  | nil => cases he
  | cons a rest ih =>
    simp only [ifaceWFList, Bool.and_eq_true] at hl
    rcases List.mem_cons.mp he with rfl | hmem
    · exact ⟨hl.1.1, hl.1.2⟩
    · exact ih hl.2 hmem

theorem contains_iff_mem {l : List String} {a : String} :
    l.contains a = true ↔ a ∈ l :=
  ⟨List.mem_of_elem_eq_true, List.elem_eq_true_of_mem⟩

/-- A successful scan returns an embedded type that unnames to an
interface whose full method set contains the target method. -/
theorem scanEmbeds_found {fn : String} {l : List GoType} {e : GoType}
    (h : scanEmbeds fn l = some (some e)) :
    isInterface (maybeUnname e) = true ∧ fn ∈ ifaceMethods e := by
  induction l with
  | nil => simp [scanEmbeds] at h
  | cons a rest ih =>
    cases hmu : maybeUnname a with
    | Interface ms em =>
      simp only [scanEmbeds, hmu] at h
      by_cases hd : definesMethod (.Interface ms em) fn = true
      · rw [if_pos hd] at h
        obtain rfl : a = e := by simpa using h
        refine ⟨by simp [hmu, isInterface], ?_⟩
        simp only [definesMethod] at hd
        rw [← ifaceMethods_maybeUnname a, hmu]
        exact contains_iff_mem.mp hd
      · rw [if_neg hd] at h
        exact ih h
    | Basic s => simp [scanEmbeds, hmu] at h
    | Invalid => simp [scanEmbeds, hmu] at h
    | Pointer p => simp [scanEmbeds, hmu] at h
    | Struct fs => simp [scanEmbeds, hmu] at h
    | Named n u => simp [scanEmbeds, hmu] at h

/-- A scan that completes without a match certifies that no embedded type
carries the method in its full method set. -/
theorem scanEmbeds_exhausted {fn : String} {l : List GoType}
    (h : scanEmbeds fn l = some none) :
    ∀ e ∈ l, fn ∉ ifaceMethods e := by
  induction l with
  | nil => simp
  | cons a rest ih =>
    cases hmu : maybeUnname a with
    | Interface ms em =>
      simp only [scanEmbeds, hmu] at h
      by_cases hd : definesMethod (.Interface ms em) fn = true
      · rw [if_pos hd] at h; cases h
      · rw [if_neg hd] at h
        intro e he
        rcases List.mem_cons.mp he with rfl | hmem
        · simp only [definesMethod] at hd
          rw [← ifaceMethods_maybeUnname e, hmu]
          intro hmem2
          exact hd (contains_iff_mem.mpr hmem2)
        · exact ih h e hmem
    | Basic s => simp [scanEmbeds, hmu] at h
    | Invalid => simp [scanEmbeds, hmu] at h
    | Pointer p => simp [scanEmbeds, hmu] at h
    | Struct fs => simp [scanEmbeds, hmu] at h
    | Named n u => simp [scanEmbeds, hmu] at h

/-- A failed scan certifies a non-interface embedded type. -/
theorem scanEmbeds_panic {fn : String} {l : List GoType}
    (h : scanEmbeds fn l = none) :
    ∃ e ∈ l, isInterface (maybeUnname e) = false := by
  induction l with
  | nil => simp [scanEmbeds] at h
  | cons a rest ih =>
    cases hmu : maybeUnname a with
    | Interface ms em =>
      simp only [scanEmbeds, hmu] at h
      by_cases hd : definesMethod (.Interface ms em) fn = true
      · rw [if_pos hd] at h; cases h
      · rw [if_neg hd] at h
        obtain ⟨e, hmem, he⟩ := ih h
        exact ⟨e, List.mem_cons_of_mem a hmem, he⟩
    | Basic s => exact ⟨a, List.mem_cons_self a rest, by simp [hmu, isInterface]⟩
    | Invalid => exact ⟨a, List.mem_cons_self a rest, by simp [hmu, isInterface]⟩
    | Pointer p => exact ⟨a, List.mem_cons_self a rest, by simp [hmu, isInterface]⟩
    | Struct fs => exact ⟨a, List.mem_cons_self a rest, by simp [hmu, isInterface]⟩
    | Named n u => exact ⟨a, List.mem_cons_self a rest, by simp [hmu, isInterface]⟩

/-- When the promotion path navigates struct fields (fieldTarget is
defined), walkFields succeeds: it extends the accumulated chain and ends
at the target, which is then the last chain element. -/
theorem walkFields_ok (path : List Nat) : ∀ (t tgt : GoType) (acc : List GoType),
    fieldTarget t path = some tgt →
    ∃ ext, walkFields t path acc = .ok (tgt, acc ++ ext) ∧
      ((ext = [] ∧ tgt = t) ∨ ext.getLast? = some tgt) := by
  induction path with
  | nil =>
    intro t tgt acc h
    simp only [fieldTarget, Option.some.injEq] at h
    exact ⟨[], by simp [walkFields, h], Or.inl ⟨rfl, h.symm⟩⟩
  | cons i rest ih =>
    intro t tgt acc h
    cases hmu : maybeUnname (maybeDereference t) with
    | Struct fields =>
      simp only [fieldTarget, hmu] at h
      cases hf : fields[i]? with
      | none => rw [hf] at h; cases h
      | some next =>
        rw [hf] at h
        obtain ⟨ext, hext, hlast⟩ := ih next tgt (acc ++ [next]) h
        refine ⟨next :: ext, ?_, ?_⟩
        · simp only [walkFields, hmu, hf, hext]
          simp
        · right
          rcases hlast with ⟨rfl, rfl⟩ | hl
          · rfl
          · rw [List.getLast?_cons, hl]
            simp
    | Basic s => simp [fieldTarget, hmu] at h
    | Invalid => simp [fieldTarget, hmu] at h
    | Pointer p => simp [fieldTarget, hmu] at h
    | Named n u => simp [fieldTarget, hmu] at h
    | Interface ms es => simp [fieldTarget, hmu] at h

/-- Unfolding of walkLoop at an interface-shaped current type. -/
theorem walkLoop_iface {fn : String} {t : GoType} {ms : List String} {embeds : List GoType}
    (acc : List GoType) (hmu : maybeUnname t = GoType.Interface ms embeds) :
    walkLoop fn t acc =
      (if explicitlyDefinesMethod (.Interface ms embeds) fn then WalkResult.ok acc
       else
         match scanEmbeds fn embeds with
         | none => WalkResult.panicked PanicKind.assertIface
         | some none => WalkResult.diverge
         | some (some e) => walkLoop fn e (acc ++ [e])) := by
  rw [walkLoop]
  split
  next ms2 embeds2 heq =>
    rw [hmu] at heq
    injection heq with h1 h2
    subst h1
    subst h2
    by_cases hexp : explicitlyDefinesMethod (GoType.Interface ms embeds) fn = true
    · rw [if_pos hexp, if_pos hexp]
    · rw [if_neg hexp, if_neg hexp]
      split
      next heq2 => rw [heq2]
      next heq2 => rw [heq2]
      next e heq2 => rw [heq2]
  next heq =>
    exact (heq ms embeds hmu).elim

/-- Unfolding of walkLoop at a non-interface current type: the Go type
assertion at the top of the loop body fails. -/
theorem walkLoop_not_iface {fn : String} {t : GoType} (acc : List GoType)
    (h : isInterface (maybeUnname t) = false) :
    walkLoop fn t acc = .panicked .assertIface := by
  rw [walkLoop]
  split
  next ms2 embeds2 heq => rw [heq] at h; simp [isInterface] at h
  next heq => rfl

theorem isInterface_false_of_forall {t : GoType}
    (h : ∀ (ms : List String) (embeds : List GoType),
        maybeUnname t = GoType.Interface ms embeds → False) :
    isInterface (maybeUnname t) = false := by
  cases hmu : maybeUnname t <;>
    first
    | exact (h _ _ hmu).elim
    | simp [isInterface]

/-- walkLoop can only return ok, diverge or the interface assertion
panic; the struct panic belongs to the field phase alone. -/
theorem walkLoop_not_notStruct (fn : String) (t : GoType) (acc : List GoType) :
    walkLoop fn t acc ≠ .panicked .notStruct := by
  induction t, acc using walkLoop.induct fn with
  | case1 t acc ms embeds hmu hexp =>
    rw [walkLoop_iface acc hmu, if_pos hexp]
    simp
  | case2 t acc ms embeds hmu hexp hscan =>
    rw [walkLoop_iface acc hmu, if_neg hexp, hscan]
    simp
  | case3 t acc ms embeds hmu hexp hscan =>
    rw [walkLoop_iface acc hmu, if_neg hexp, hscan]
    simp
  | case4 t acc ms embeds hmu hexp e hscan ih =>
    rw [walkLoop_iface acc hmu, if_neg hexp, hscan]
    exact ih
  | case5 t acc h =>
    rw [walkLoop_not_iface acc (isInterface_false_of_forall h)]
    simp

/-- Claim C10: for a method selection whose promotion index path navigates
struct fields as the type checker guarantees (fieldTarget is defined on
the first k-1 indices), the field phase never reaches the expected-Struct
assertion, and the walker as a whole never raises that panic. -/
theorem walk_expected_struct_unreachable (sel : Selection)
    (h : (fieldTarget sel.recv sel.index.dropLast).isSome = true) :
    (∀ acc, walkFields sel.recv sel.index.dropLast acc ≠ .error PanicKind.notStruct) ∧
    walkThroughEmbeddedInterfaces sel ≠ .panicked PanicKind.notStruct := by
  obtain ⟨tgt, htgt⟩ := Option.isSome_iff_exists.mp h
  have hfields : ∀ acc, ∃ ext,
      walkFields sel.recv sel.index.dropLast acc = .ok (tgt, acc ++ ext) ∧
      ((ext = [] ∧ tgt = sel.recv) ∨ ext.getLast? = some tgt) :=
    fun acc => walkFields_ok _ _ tgt acc htgt
  constructor
  · intro acc
    obtain ⟨ext, hext, -⟩ := hfields acc
    simp [hext]
  · rw [walkThroughEmbeddedInterfaces]
    by_cases h1 : !sel.isFunc
    · simp [h1]
    · rw [if_neg h1]
      by_cases h2 : isInvalid sel.recv
      · simp [h2]
      · rw [if_neg h2]
        by_cases h3 : sel.index = []
        · simp [h3]
        · rw [if_neg h3]
          obtain ⟨ext, hext, -⟩ := hfields [sel.recv]
          rw [hext]
          by_cases h4 : isInterface (maybeUnname tgt)
          · simpa [h4] using walkLoop_not_notStruct sel.fnId tgt ([sel.recv] ++ ext)
          · simp [h4]

def sel10 : Selection := ⟨true, "M", .Struct [.Interface ["M"] []], [0, 0]⟩

theorem walk_expected_struct_unreachable_witness :
    walkThroughEmbeddedInterfaces sel10 ≠ .panicked PanicKind.notStruct :=
  (walk_expected_struct_unreachable sel10 rfl).2

/-- Claim C4: on a selection whose post-promotion receiver type is an
interface whose full method set contains the target method, the embedded
interface descent loop never spins: each step strictly descends the
finite embedding tree (this is the termination measure of walkLoop), and
the loop cannot report divergence. -/
theorem walkLoop_terminates (fn : String) (t : GoType) (acc : List GoType)
    (hif : isInterface (maybeUnname t) = true)
    (hm : fn ∈ ifaceMethods t) :
    walkLoop fn t acc ≠ WalkResult.diverge := by
  induction t, acc using walkLoop.induct fn with
  | case1 t acc ms embeds hmu hexp =>
    rw [walkLoop_iface acc hmu, if_pos hexp]
    simp
  | case2 t acc ms embeds hmu hexp hscan =>
    rw [walkLoop_iface acc hmu, if_neg hexp, hscan]
    simp
  | case3 t acc ms embeds hmu hexp hscan =>
    rw [← ifaceMethods_maybeUnname t, hmu] at hm
    rw [ifaceMethods] at hm
    rcases List.mem_append.mp hm with hms | hrest
    · rw [explicitlyDefinesMethod] at hexp
      exact absurd (contains_iff_mem.mpr hms) (by simpa using hexp)
    · obtain ⟨e, hmem, he⟩ := mem_ifaceMethodsList.mp hrest
      exact absurd he (scanEmbeds_exhausted hscan e hmem)
  | case4 t acc ms embeds hmu hexp e hscan ih =>
    rw [walkLoop_iface acc hmu, if_neg hexp, hscan]
    obtain ⟨hif2, hm2⟩ := scanEmbeds_found hscan
    exact ih hif2 hm2
  | case5 t acc h =>
    rw [walkLoop_not_iface acc (isInterface_false_of_forall h)]
    simp

def t4 : GoType := .Interface ["Foo"] []

theorem walkLoop_terminates_witness :
    walkLoop "Foo" t4 [t4] ≠ WalkResult.diverge :=
  walkLoop_terminates "Foo" t4 [t4] rfl (by simp [t4, ifaceMethods])

theorem specUnwrap_maybeUnname (t : GoType) :
    specUnwrap (maybeUnname t) = specUnwrap t := by
  cases t <;> simp [maybeUnname, specUnwrap]

/-- Under the go/types guarantees about the reached type, full pointer and
name unwrapping reaches an interface exactly when one unnaming does: the
line 55 check of the source and the wording of the specification agree. -/
theorem isInterface_specUnwrap_eq (t : GoType) (fn : String)
    (hro : reachedOk t fn = true) :
    isInterface (specUnwrap t) = isInterface (maybeUnname t) := by
  rw [← specUnwrap_maybeUnname]
  cases hmu : maybeUnname t with
  | Interface ms em => simp [specUnwrap, isInterface]
  | Pointer p =>
    simp only [reachedOk, hmu, Bool.not_eq_true'] at hro
    have h2 : isInterface (specUnwrap (GoType.Pointer p)) = false := hro
    rw [h2]
    rfl
  | Named n u => simp only [reachedOk, hmu] at hro; cases hro
  | Basic s => simp [specUnwrap, isInterface]
  | Invalid => simp [specUnwrap, isInterface]
  | Struct fs => simp [specUnwrap, isInterface]

/-- The descent loop on a well formed interface whose full method set
contains the target method: it succeeds, only appends to the chain, and
the final chain element explicitly declares the method. -/
theorem walkLoop_ok (fn : String) (t : GoType) (acc : List GoType)
    (hif : isInterface (maybeUnname t) = true)
    (hm : fn ∈ ifaceMethods t)
    (hwf : ifaceWF t = true)
    (hlast : acc.getLast? = some t) :
    ∃ pre lst, walkLoop fn t acc = .ok (acc ++ pre) ∧
      (acc ++ pre).getLast? = some lst ∧
      explicitlyDefinesMethod (maybeUnname lst) fn = true := by
  induction t, acc using walkLoop.induct fn with
  | case1 t acc ms embeds hmu hexp =>
    refine ⟨[], t, ?_, ?_, ?_⟩
    · rw [walkLoop_iface acc hmu, if_pos hexp]; simp
    · simpa using hlast
    · rw [hmu]; exact hexp
  | case2 t acc ms embeds hmu hexp hscan =>
    exfalso
    obtain ⟨e, hmem, he⟩ := scanEmbeds_panic hscan
    have hwf2 : ifaceWF (maybeUnname t) = true := by
      rw [ifaceWF_maybeUnname]; exact hwf
    rw [hmu, ifaceWF] at hwf2
    exact absurd (ifaceWFList_mem hwf2 hmem).1 (by simp [he])
  | case3 t acc ms embeds hmu hexp hscan =>
    exfalso
    rw [← ifaceMethods_maybeUnname t, hmu, ifaceMethods] at hm
    rcases List.mem_append.mp hm with hms | hrest
    · rw [explicitlyDefinesMethod] at hexp
      exact absurd (contains_iff_mem.mpr hms) (by simpa using hexp)
    · obtain ⟨e, hmem, he⟩ := mem_ifaceMethodsList.mp hrest
      exact absurd he (scanEmbeds_exhausted hscan e hmem)
  | case4 t acc ms embeds hmu hexp e hscan ih =>
    obtain ⟨hif2, hm2⟩ := scanEmbeds_found hscan
    have hwfl : ifaceWF (maybeUnname t) = true := by
      rw [ifaceWF_maybeUnname]; exact hwf
    rw [hmu, ifaceWF] at hwfl
    have hwf2 : ifaceWF e = true := (ifaceWFList_mem hwfl (scanEmbeds_mem hscan)).2
    obtain ⟨pre, lst, hok, hl, hex⟩ := ih hif2 hm2 hwf2 (by simp)
    refine ⟨e :: pre, lst, ?_, ?_, hex⟩
    · rw [walkLoop_iface acc hmu, if_neg hexp, hscan]
      show walkLoop fn e (acc ++ [e]) = _
      rw [hok]
      simp
    · simpa using hl
  | case5 t acc h =>
    exact absurd hif (by simp [isInterface_false_of_forall h])

/-- Claim C3: on a valid method selection, the walk returns not-applicable
exactly when the type reached by the promotion path is not an interface
after pointer and named-type unwrapping; when it is an interface, the walk
succeeds with a chain starting at the receiver whose last element
explicitly declares the target method, found by the explicit-set check and
descent into the first embedded interface whose full method set carries
the method. -/
theorem walk_resolution (sel : Selection) (t : GoType)
    (hv : ValidSelection sel)
    (ht : fieldTarget sel.recv sel.index.dropLast = some t) :
    (walkThroughEmbeddedInterfaces sel = .notApplicable ↔
       isInterface (specUnwrap t) = false) ∧
    (isInterface (specUnwrap t) = true →
       ∃ chain lst, walkThroughEmbeddedInterfaces sel = .ok chain ∧
         chain.head? = some sel.recv ∧
         chain.getLast? = some lst ∧
         explicitlyDefinesMethod (maybeUnname lst) sel.fnId = true) := by
  obtain ⟨hfun, hinv, hne, t2, ht2, hro⟩ := hv
  rw [ht] at ht2
  obtain rfl : t = t2 := Option.some.inj ht2
  have hspec := isInterface_specUnwrap_eq t sel.fnId hro
  obtain ⟨ext, hext, hlastext⟩ := walkFields_ok _ _ t [sel.recv] ht
  have hwalk : walkThroughEmbeddedInterfaces sel =
      (if isInterface (maybeUnname t) = true then walkLoop sel.fnId t ([sel.recv] ++ ext)
       else WalkResult.notApplicable) := by
    rw [walkThroughEmbeddedInterfaces]
    rw [if_neg (by simp [hfun]), if_neg (by simp [hinv]), if_neg hne, hext]
  rw [hwalk]
  by_cases hi : isInterface (maybeUnname t) = true
  · cases hmu : maybeUnname t with
    | Interface ms em =>
      simp only [reachedOk, hmu, Bool.and_eq_true] at hro
      have hmem : sel.fnId ∈ ifaceMethods t := by
        rw [← ifaceMethods_maybeUnname t, hmu]
        exact contains_iff_mem.mp hro.1
      have hwf : ifaceWF t = true := by
        rw [← ifaceWF_maybeUnname, hmu]
        exact hro.2
      have hlast0 : ([sel.recv] ++ ext).getLast? = some t := by
        rcases hlastext with ⟨rfl, rfl⟩ | hl
        · simp
        · rw [List.getLast?_append, hl]
          rfl
      obtain ⟨pre, lst, hok, hl, hex⟩ :=
        walkLoop_ok sel.fnId t ([sel.recv] ++ ext) hi hmem hwf hlast0
      rw [if_pos (show isInterface (GoType.Interface ms em) = true from rfl), hok]
      constructor
      · rw [hspec, hi]
        simp
      · intro _
        exact ⟨([sel.recv] ++ ext) ++ pre, lst, rfl, by simp, hl, hex⟩
    | Basic s => rw [hmu] at hi; cases hi
    | Invalid => rw [hmu] at hi; cases hi
    | Pointer p => rw [hmu] at hi; cases hi
    | Struct fs => rw [hmu] at hi; cases hi
    | Named n u => rw [hmu] at hi; cases hi
  · rw [if_neg hi]
    have hi2 : isInterface (maybeUnname t) = false := by
      simpa using hi
    rw [hspec, hi2]
    constructor
    · simp
    · intro hcon; cases hcon

def sel3 : Selection :=
  ⟨true, "M",
   .Named "S" (.Struct [.Named "I" (.Interface [] [.Named "J" (.Interface ["M"] [])])]),
   [0, 0]⟩

def tgt3 : GoType := .Named "I" (.Interface [] [.Named "J" (.Interface ["M"] [])])

theorem walk_resolution_witness :
    isInterface (specUnwrap tgt3) = true ∧
    ∃ chain lst, walkThroughEmbeddedInterfaces sel3 = .ok chain ∧
      chain.head? = some sel3.recv ∧
      chain.getLast? = some lst ∧
      explicitlyDefinesMethod (maybeUnname lst) sel3.fnId = true := by
  have hv : ValidSelection sel3 := by
    refine ⟨rfl, rfl, by simp [sel3], tgt3, rfl, ?_⟩
    simp [sel3, tgt3, reachedOk, maybeUnname, ifaceMethods, ifaceMethodsList,
      ifaceWF, ifaceWFList, isInterface]
  have h := walk_resolution sel3 tgt3 hv rfl
  have hi : isInterface (specUnwrap tgt3) = true := by
    simp [tgt3, specUnwrap, isInterface]
  exact ⟨hi, h.2 hi⟩

/-! ## Part 6: the statement visitor -/

/-- The diagnostic value addErrorAtPosition produces for a position, as a
pure function of the environment (the cache is transparent). -/
def mkErr (env : Env) (p : Nat) : UncheckedError :=
  let pos := env.posOf p
  let lines := readfileM env pos.filename
  ⟨pos, if pos.line - 1 < lines.length then (lines.getD (pos.line - 1) "").trim
        else "??"⟩

/-- The lines cache only memoizes readfile results. -/
def CacheOk (env : Env) (L : List (String × List String)) : Prop :=
  ∀ f ls, (f, ls) ∈ L → ls = readfileM env f

theorem cacheLookup_mem {L : List (String × List String)} {f : String}
    {ls : List String} (h : cacheLookup L f = some ls) : (f, ls) ∈ L := by
  induction L with
  | nil => simp [cacheLookup] at h
  | cons a rest ih =>
    obtain ⟨g, gs⟩ := a
    rw [cacheLookup] at h
    by_cases hg : g == f
    · rw [if_pos hg] at h
      obtain rfl : gs = ls := by simpa using h
      have : g = f := by simpa using hg
      subst this
      exact List.mem_cons_self _ _
    · rw [if_neg hg] at h
      exact List.mem_cons_of_mem _ (ih h)

theorem CacheOk_nil (env : Env) : CacheOk env [] := by
  intro f ls h
  cases h

theorem addError_spec (env : Env) (s : CState) (p : Nat)
    (hc : CacheOk env s.lines) :
    (addErrorAtPosition env s p).errors = s.errors ++ [mkErr env p] ∧
    CacheOk env (addErrorAtPosition env s p).lines := by
  cases hl : cacheLookup s.lines (env.posOf p).filename with
  | some ls =>
    have hread : ls = readfileM env (env.posOf p).filename :=
      hc _ _ (cacheLookup_mem hl)
    constructor
    · simp only [addErrorAtPosition, mkErr, hl, hread]
    · simp only [addErrorAtPosition, hl]
      exact hc
  | none =>
    constructor
    · simp only [addErrorAtPosition, mkErr, hl]
    · simp only [addErrorAtPosition, hl]
      intro f ls hmem
      rcases List.mem_cons.mp hmem with heq2 | hmem2
      · rw [Prod.mk.injEq] at heq2
        obtain ⟨h1, h2⟩ := heq2
        subst h1
        subst h2
        rfl
      · exact hc _ _ hmem2

/-- Go well-typedness of an assignment with one call on the right hand
side: a multi valued call yields a tuple with exactly one element per
target, a single target receives a single (non tuple) value. -/
def wellTypedCallAssign (env : Env) (lhs : List Expr) (call : Expr) : Bool :=
  match env.typeOf call with
  | .tupleT es => es.length == lhs.length
  | _ => lhs.length == 1

theorem errorsByArg_length (env : Env) (call : Expr) :
    (errorsByArg env call).length =
      (match env.typeOf call with
       | RType.tupleT es => es.length
       | _ => 1) := by
  unfold errorsByArg
  cases env.typeOf call <;> simp

theorem blankLoop_total (env : Env) (call : Expr) (isErr : List Bool) :
    ∀ (lhs : List Expr) (i : Nat) (s : CState),
      i + lhs.length ≤ isErr.length →
      ∃ s2, blankLoop env call isErr i s lhs = some s2 := by
  intro lhs
  induction lhs with
  | nil => exact fun i s _ => ⟨s, rfl⟩
  | cons l rest ih =>
    intro i s h
    rw [List.length_cons] at h
    cases l with
    | identX name npos =>
      simp only [blankLoop]
      by_cases hn : (name == "_") = true
      · rw [if_pos hn]
        by_cases hr : isRecover env call = true
        · rw [if_pos hr]
          exact ih (i + 1) _ (by omega)
        · rw [if_neg hr]
          cases hbv : isErr[i]? with
          | none =>
            exfalso
            rw [List.getElem?_eq_none_iff] at hbv
            omega
          | some b =>
            cases b
            · exact ih (i + 1) s (by omega)
            · exact ih (i + 1) _ (by omega)
      · rw [if_neg hn]
        exact ih (i + 1) s (by omega)
    | selectorX x sn sp => simp only [blankLoop]; exact ih (i + 1) s (by omega)
    | callX fn lp => simp only [blankLoop]; exact ih (i + 1) s (by omega)
    | assertX x b => simp only [blankLoop]; exact ih (i + 1) s (by omega)
    | otherX p => simp only [blankLoop]; exact ih (i + 1) s (by omega)

/-- Claim C9: in the blank-assignment branch with a single call on the
right, well-typedness makes the classification sequence at least as long
as the target list, so the isError indexing stays in bounds and the
branch never panics. -/
theorem blank_assign_safe (env : Env) (cfg : Config) (s : CState)
    (lhs : List Expr) (fn : Expr) (lp : Nat)
    (hwt : wellTypedCallAssign env lhs (.callX fn lp) = true) :
    lhs.length ≤ (errorsByArg env (.callX fn lp)).length ∧
    Visit env cfg s (.assign lhs [.callX fn lp]) ≠ none := by
  have hlen : lhs.length ≤ (errorsByArg env (.callX fn lp)).length := by
    rw [errorsByArg_length]
    unfold wellTypedCallAssign at hwt
    cases htype : env.typeOf (Expr.callX fn lp) with
    | tupleT es =>
      simp only [htype, beq_iff_eq] at hwt ⊢
      omega
    | namedT o =>
      simp only [htype, beq_iff_eq] at hwt ⊢
      omega
    | otherT =>
      simp only [htype, beq_iff_eq] at hwt ⊢
      omega
  refine ⟨hlen, ?_⟩
  show (if !cfg.blank then some s
        else if ignoreCall env cfg (.callX fn lp) then some s
        else blankLoop env (.callX fn lp) (errorsByArg env (.callX fn lp)) 0 s lhs) ≠ none
  by_cases hb : (!cfg.blank) = true
  · rw [if_pos hb]; simp
  · rw [if_neg hb]
    by_cases hi : ignoreCall env cfg (.callX fn lp) = true
    · rw [if_pos hi]; simp
    · rw [if_neg hi]
      obtain ⟨s2, hs2⟩ :=
        blankLoop_total env (.callX fn lp) (errorsByArg env (.callX fn lp)) lhs 0 s
          (by omega)
      simp [hs2]

def env9 : Env := ⟨fun _ => .tupleT [some ⟨none, "error"⟩], fun _ => none,
  fun _ => ⟨"n.go", 1, 1⟩, fun _ => none⟩

theorem blank_assign_safe_witness :
    [Expr.identX "_" 5].length ≤
      (errorsByArg env9 (.callX (.identX "g" 0) 1)).length ∧
    Visit env9 ⟨fun _ => none, true, false⟩ initState
      (.assign [.identX "_" 5] [.callX (.identX "g" 0) 1]) ≠ none :=
  blank_assign_safe env9 ⟨fun _ => none, true, false⟩ initState
    [.identX "_" 5] (.identX "g" 0) 1 rfl

theorem callReturnsError_false {env : Env} {call : Expr}
    (hnorec : isRecover env call = false)
    (hnoerr : ∀ b ∈ errorsByArg env call, b = false) :
    callReturnsError env call = false := by
  unfold callReturnsError
  rw [if_neg (by simp [hnorec])]
  rw [List.any_eq_false]
  intro b hb
  simp [hnoerr b hb]

theorem blankLoop_unchanged (env : Env) (call : Expr) (isErr : List Bool)
    (hnorec : isRecover env call = false)
    (hfalse : ∀ b ∈ isErr, b = false) :
    ∀ (lhs : List Expr) (i : Nat) (s s2 : CState),
      blankLoop env call isErr i s lhs = some s2 → s2 = s := by
  intro lhs
  induction lhs with
  | nil =>
    intro i s s2 h
    simp only [blankLoop, Option.some.injEq] at h
    exact h.symm
  | cons l rest ih =>
    intro i s s2 h
    cases l with
    | identX name npos =>
      simp only [blankLoop] at h
      by_cases hn : (name == "_") = true
      · rw [if_pos hn, if_neg (by simp [hnorec])] at h
        cases hbv : isErr[i]? with
        | none => rw [hbv] at h; cases h
        | some b =>
          have hbf : b = false := hfalse b (List.getElem?_mem hbv)
          subst hbf
          rw [hbv] at h
          exact ih (i + 1) s s2 h
      · rw [if_neg hn] at h
        exact ih (i + 1) s s2 h
    | selectorX x sn sp => simp only [blankLoop] at h; exact ih (i + 1) s s2 h
    | callX fn lp => simp only [blankLoop] at h; exact ih (i + 1) s s2 h
    | assertX x b => simp only [blankLoop] at h; exact ih (i + 1) s s2 h
    | otherX p => simp only [blankLoop] at h; exact ih (i + 1) s s2 h

theorem multiLoop_unchanged (env : Env) (cfg : Config) (rhs : List Expr)
    (fn : Expr) (lp : Nat)
    (hall : ∀ (j : Nat) (r : Expr), rhs[j]? = some r → r = Expr.callX fn lp)
    (hCRE : callReturnsError env (Expr.callX fn lp) = false) :
    ∀ (lhs : List Expr) (i : Nat) (s s2 : CState),
      multiLoop env cfg rhs i s lhs = some s2 → s2 = s := by
  intro lhs
  induction lhs with
  | nil =>
    intro i s s2 h
    simp only [multiLoop, Option.some.injEq] at h
    exact h.symm
  | cons l rest ih =>
    intro i s s2 h
    cases l with
    | identX name npos =>
      simp only [multiLoop] at h
      cases hr : rhs[i]? with
      | none => rw [hr] at h; cases h
      | some r =>
        obtain rfl : r = Expr.callX fn lp := hall i r hr
        simp only [hr] at h
        by_cases hb : (!cfg.blank) = true
        · rw [if_pos hb] at h
          exact ih (i + 1) s s2 h
        · rw [if_neg hb] at h
          by_cases hi : ignoreCall env cfg (Expr.callX fn lp) = true
          · rw [if_pos hi] at h
            exact ih (i + 1) s s2 h
          · rw [if_neg hi, if_neg (by simp [hCRE])] at h
            exact ih (i + 1) s s2 h
    | selectorX x sn sp => simp only [multiLoop] at h; exact ih (i + 1) s s2 h
    | callX fn2 lp2 => simp only [multiLoop] at h; exact ih (i + 1) s s2 h
    | assertX x b => simp only [multiLoop] at h; exact ih (i + 1) s s2 h
    | otherX p => simp only [multiLoop] at h; exact ih (i + 1) s s2 h

def envR : Env := ⟨fun _ => .otherT,
  fun id => if id.name == "recover" then some ⟨true, none⟩ else none,
  fun _ => ⟨"r.go", 1, 1⟩, fun _ => none⟩

def rcall : Expr := .callX (.identX "recover" 3) 4

/-- Claim C2, counterexample: the built-in recover has a result-type tuple
with zero occurrences of the failure type (its classification is [false]),
yet the visitor emits a diagnostic for a bare recover() statement under
the empty exclusion configuration. -/
theorem recover_emits_counterexample :
    errorsByArg envR rcall = [false] ∧
    isRecover envR rcall = true ∧
    Visit envR ⟨fun _ => none, false, false⟩ initState (.exprStmt rcall)
      = some ⟨[("r.go", [])], [⟨⟨"r.go", 1, 1⟩, "??"⟩]⟩ :=
  ⟨rfl, rfl, rfl⟩

/-- Claim C2, amended: for every call whose classification holds no true
slot and that is not the built-in recover, the visitor emits no diagnostic
for that call in any statement shape, under every exclusion configuration;
recover-calls are the exception, being unconditionally treated as
failure-producing despite their failure-free result type. -/
theorem no_error_no_recover_no_diagnostic (env : Env) (cfg : Config)
    (s : CState) (fn : Expr) (lp : Nat)
    (hnoerr : ∀ b ∈ errorsByArg env (.callX fn lp), b = false)
    (hnorec : isRecover env (.callX fn lp) = false) :
    Visit env cfg s (.exprStmt (.callX fn lp)) = some s ∧
    Visit env cfg s (.goStmt fn lp) = some s ∧
    Visit env cfg s (.deferStmt fn lp) = some s ∧
    (∀ lhs s2, Visit env cfg s (.assign lhs [.callX fn lp]) = some s2 →
        s2.errors = s.errors) ∧
    (∀ lhs n s2,
        Visit env cfg s (.assign lhs (List.replicate n (.callX fn lp))) = some s2 →
        s2.errors = s.errors) := by
  have hCRE : callReturnsError env (.callX fn lp) = false :=
    callReturnsError_false hnorec hnoerr
  have hbare :
      (if !ignoreCall env cfg (.callX fn lp) && callReturnsError env (.callX fn lp)
       then some (addErrorAtPosition env s lp) else some s) = some s := by
    rw [if_neg (by simp [hCRE])]
  have hsingle : ∀ lhs s2, Visit env cfg s (.assign lhs [.callX fn lp]) = some s2 →
      s2.errors = s.errors := by
    intro lhs s2 h
    revert h
    show (if !cfg.blank then some s
          else if ignoreCall env cfg (.callX fn lp) then some s
          else blankLoop env (.callX fn lp) (errorsByArg env (.callX fn lp)) 0 s lhs)
            = some s2 → s2.errors = s.errors
    intro h
    by_cases hb : (!cfg.blank) = true
    · rw [if_pos hb] at h
      obtain rfl : s = s2 := by simpa using h
      rfl
    · rw [if_neg hb] at h
      by_cases hi : ignoreCall env cfg (.callX fn lp) = true
      · rw [if_pos hi] at h
        obtain rfl : s = s2 := by simpa using h
        rfl
      · rw [if_neg hi] at h
        rw [blankLoop_unchanged env (.callX fn lp) _ hnorec hnoerr lhs 0 s s2 h]
  refine ⟨hbare, hbare, hbare, hsingle, ?_⟩
  intro lhs n s2 h
  match n with
  | 0 =>
    rw [multiLoop_unchanged env cfg [] fn lp (by simp) hCRE lhs 0 s s2 h]
  | 1 => exact hsingle lhs s2 h
  | (m + 2) =>
    have hall : ∀ (j : Nat) (r : Expr),
        (List.replicate (m + 2) (Expr.callX fn lp))[j]? = some r →
        r = Expr.callX fn lp := by
      intro j r hj
      exact List.eq_of_mem_replicate (List.getElem?_mem hj)
    rw [multiLoop_unchanged env cfg _ fn lp hall hCRE lhs 0 s s2 h]

def envW : Env := ⟨fun _ => .otherT, fun _ => none,
  fun _ => ⟨"w.go", 1, 1⟩, fun _ => none⟩

theorem no_error_no_recover_no_diagnostic_witness :
    Visit envW ⟨fun _ => none, true, true⟩ initState
      (.exprStmt (.callX (.identX "f" 0) 1)) = some initState :=
  (no_error_no_recover_no_diagnostic envW ⟨fun _ => none, true, true⟩ initState
    (.identX "f" 0) 1
    (by intro b hb; simpa [errorsByArg, envW] using hb) rfl).1

/-! ## Part 7: blank mode monotonicity -/

/-- The syntactic well-typedness the monotonicity claim needs: only the
blank-assignment branch with a single call indexes the classification. -/
def wtStmt (env : Env) : Stmt → Bool
  | .assign lhs rhs =>
    match rhs with
    | [Expr.callX fn lp] => wellTypedCallAssign env lhs (Expr.callX fn lp)
    | _ => true
  | _ => true

theorem wtCallAssign_le {env : Env} {lhs : List Expr} {fn : Expr} {lp : Nat}
    (hwt : wellTypedCallAssign env lhs (.callX fn lp) = true) :
    lhs.length ≤ (errorsByArg env (.callX fn lp)).length := by
  rw [errorsByArg_length]
  unfold wellTypedCallAssign at hwt
  cases htype : env.typeOf (Expr.callX fn lp) with
  | tupleT es => simp only [htype, beq_iff_eq] at hwt ⊢; omega
  | namedT o => simp only [htype, beq_iff_eq] at hwt ⊢; omega
  | otherT => simp only [htype, beq_iff_eq] at hwt ⊢; omega

theorem blankLoop_mono (env : Env) (call : Expr) (isErr : List Bool) :
    ∀ (lhs : List Expr) (i : Nat) (s s2 : CState), CacheOk env s.lines →
      blankLoop env call isErr i s lhs = some s2 →
      CacheOk env s2.lines ∧ ∃ add, s2.errors = s.errors ++ add := by
  intro lhs
  induction lhs with
  | nil =>
    intro i s s2 hc h
    simp only [blankLoop, Option.some.injEq] at h
    exact h ▸ ⟨hc, [], by simp⟩
  | cons l rest ih =>
    intro i s s2 hc h
    have step : ∀ s3, CacheOk env s3.lines →
        (∃ add0, s3.errors = s.errors ++ add0) →
        blankLoop env call isErr (i + 1) s3 rest = some s2 →
        CacheOk env s2.lines ∧ ∃ add, s2.errors = s.errors ++ add := by
      intro s3 hc3 ⟨add0, hadd0⟩ h3
      obtain ⟨hc2, add1, hadd1⟩ := ih (i + 1) s3 s2 hc3 h3
      exact ⟨hc2, add0 ++ add1, by rw [hadd1, hadd0, List.append_assoc]⟩
    cases l with
    | identX name npos =>
      simp only [blankLoop] at h
      by_cases hn : (name == "_") = true
      · rw [if_pos hn] at h
        by_cases hr : isRecover env call = true
        · rw [if_pos hr] at h
          obtain ⟨he, hcadd⟩ := addError_spec env s npos hc
          exact step _ hcadd ⟨[mkErr env npos], he⟩ h
        · rw [if_neg hr] at h
          cases hbv : isErr[i]? with
          | none => rw [hbv] at h; cases h
          | some b =>
            rw [hbv] at h
            cases b
            · exact step s hc ⟨[], by simp⟩ h
            · obtain ⟨he, hcadd⟩ := addError_spec env s npos hc
              exact step _ hcadd ⟨[mkErr env npos], he⟩ h
      · rw [if_neg hn] at h
        exact step s hc ⟨[], by simp⟩ h
    | selectorX x sn sp =>
      simp only [blankLoop] at h
      exact step s hc ⟨[], by simp⟩ h
    | callX fn2 lp2 =>
      simp only [blankLoop] at h
      exact step s hc ⟨[], by simp⟩ h
    | assertX x b =>
      simp only [blankLoop] at h
      exact step s hc ⟨[], by simp⟩ h
    | otherX p =>
      simp only [blankLoop] at h
      exact step s hc ⟨[], by simp⟩ h

theorem multiLoop_sim (env : Env) (ig : String → Option (String → Bool)) (ast : Bool)
    (rhs : List Expr) :
    ∀ (lhs : List Expr) (i : Nat) (sF sT sF2 : CState),
      CacheOk env sF.lines → CacheOk env sT.lines →
      sF.errors.Sublist sT.errors →
      multiLoop env ⟨ig, false, ast⟩ rhs i sF lhs = some sF2 →
      ∃ sT2, multiLoop env ⟨ig, true, ast⟩ rhs i sT lhs = some sT2 ∧
        CacheOk env sF2.lines ∧ CacheOk env sT2.lines ∧
        sF2.errors.Sublist sT2.errors := by
  intro lhs
  induction lhs with
  | nil =>
    intro i sF sT sF2 hcF hcT hsub h
    simp only [multiLoop, Option.some.injEq] at h
    exact ⟨sT, rfl, h ▸ hcF, hcT, h ▸ hsub⟩
  | cons l rest ih =>
    intro i sF sT sF2 hcF hcT hsub h
    cases l with
    | identX name npos =>
      simp only [multiLoop] at h ⊢
      cases hr : rhs[i]? with
      | none => rw [hr] at h; cases h
      | some r =>
        simp only [hr] at h ⊢
        cases r with
        | callX fn lp =>
          simp only [Bool.not_false, Bool.not_true, if_true] at h
          simp only [Bool.not_false, Bool.not_true, Bool.false_eq_true, if_false]
          by_cases hi : ignoreCall env ⟨ig, true, ast⟩ (Expr.callX fn lp) = true
          · rw [if_pos hi]
            exact ih (i + 1) sF sT sF2 hcF hcT hsub h
          · rw [if_neg hi]
            by_cases hcond :
                (name == "_" && callReturnsError env (Expr.callX fn lp)) = true
            · rw [if_pos hcond]
              obtain ⟨he, hca⟩ := addError_spec env sT npos hcT
              obtain ⟨sT2, hT, hc1, hc2, hs⟩ :=
                ih (i + 1) sF (addErrorAtPosition env sT npos) sF2 hcF hca
                  (by rw [he]; exact hsub.trans (List.sublist_append_left _ _)) h
              exact ⟨sT2, hT, hc1, hc2, hs⟩
            · rw [if_neg hcond]
              exact ih (i + 1) sF sT sF2 hcF hcT hsub h
        | assertX x ht =>
          have h2 : (if (!ast) = true
              then multiLoop env ⟨ig, false, ast⟩ rhs (i + 1) sF rest
              else if (!ht) = true
              then multiLoop env ⟨ig, false, ast⟩ rhs (i + 1) sF rest
              else multiLoop env ⟨ig, false, ast⟩ rhs (i + 1)
                (addErrorAtPosition env sF npos) rest) = some sF2 := h
          suffices hsuf : ∃ sT2, (if (!ast) = true
              then multiLoop env ⟨ig, true, ast⟩ rhs (i + 1) sT rest
              else if (!ht) = true
              then multiLoop env ⟨ig, true, ast⟩ rhs (i + 1) sT rest
              else multiLoop env ⟨ig, true, ast⟩ rhs (i + 1)
                (addErrorAtPosition env sT npos) rest) = some sT2 ∧
              CacheOk env sF2.lines ∧ CacheOk env sT2.lines ∧
              sF2.errors.Sublist sT2.errors by
            exact hsuf
          by_cases ha : (!ast) = true
          · rw [if_pos ha] at h2
            rw [if_pos ha]
            exact ih (i + 1) sF sT sF2 hcF hcT hsub h2
          · rw [if_neg ha] at h2
            rw [if_neg ha]
            by_cases hht : (!ht) = true
            · rw [if_pos hht] at h2
              rw [if_pos hht]
              exact ih (i + 1) sF sT sF2 hcF hcT hsub h2
            · rw [if_neg hht] at h2
              rw [if_neg hht]
              obtain ⟨heF, hcaF⟩ := addError_spec env sF npos hcF
              obtain ⟨heT, hcaT⟩ := addError_spec env sT npos hcT
              exact ih (i + 1) _ _ sF2 hcaF hcaT
                (by rw [heF, heT]; exact hsub.append (List.Sublist.refl _)) h2
        | identX n2 p2 => exact ih (i + 1) sF sT sF2 hcF hcT hsub h
        | selectorX x2 sn2 sp2 => exact ih (i + 1) sF sT sF2 hcF hcT hsub h
        | otherX p2 => exact ih (i + 1) sF sT sF2 hcF hcT hsub h
    | selectorX x sn sp =>
      simp only [multiLoop] at h ⊢
      exact ih (i + 1) sF sT sF2 hcF hcT hsub h
    | callX fn lp =>
      simp only [multiLoop] at h ⊢
      exact ih (i + 1) sF sT sF2 hcF hcT hsub h
    | assertX x b =>
      simp only [multiLoop] at h ⊢
      exact ih (i + 1) sF sT sF2 hcF hcT hsub h
    | otherX p =>
      simp only [multiLoop] at h ⊢
      exact ih (i + 1) sF sT sF2 hcF hcT hsub h

theorem Visit_call_assign_eq (env : Env) (cfg : Config) (s : CState)
    (lhs : List Expr) (fn : Expr) (lp : Nat) :
    Visit env cfg s (.assign lhs [.callX fn lp]) =
      (if !cfg.blank then some s
       else if ignoreCall env cfg (.callX fn lp) then some s
       else blankLoop env (.callX fn lp) (errorsByArg env (.callX fn lp)) 0 s lhs) := rfl

theorem Visit_assert_assign_eq (env : Env) (cfg : Config) (s : CState)
    (lhs : List Expr) (x : Expr) (ht : Bool) :
    Visit env cfg s (.assign lhs [.assertX x ht]) =
      (if !cfg.asserts then some s
       else if !ht then some s
       else if lhs.length < 2 then
         some (addErrorAtPosition env s (Expr.assertX x ht).pos)
       else match lhs[1]? with
            | some (Expr.identX name npos) =>
              if cfg.blank && name == "_" then some (addErrorAtPosition env s npos)
              else some s
            | _ => some s) := rfl

theorem bareCheck_sim (env : Env) (ig : String → Option (String → Bool)) (ast : Bool)
    (fn : Expr) (lp : Nat) :
    ∀ (sF sT sF2 : CState), CacheOk env sF.lines → CacheOk env sT.lines →
      sF.errors.Sublist sT.errors →
      (if !ignoreCall env ⟨ig, false, ast⟩ (.callX fn lp)
            && callReturnsError env (.callX fn lp)
       then some (addErrorAtPosition env sF lp) else some sF) = some sF2 →
      ∃ sT2, (if !ignoreCall env ⟨ig, true, ast⟩ (.callX fn lp)
                 && callReturnsError env (.callX fn lp)
              then some (addErrorAtPosition env sT lp) else some sT) = some sT2 ∧
        CacheOk env sF2.lines ∧ CacheOk env sT2.lines ∧
        sF2.errors.Sublist sT2.errors := by
  intro sF sT sF2 hcF hcT hsub h
  have hig : ignoreCall env ⟨ig, false, ast⟩ (.callX fn lp)
      = ignoreCall env ⟨ig, true, ast⟩ (.callX fn lp) := rfl
  by_cases hc : (!ignoreCall env ⟨ig, false, ast⟩ (.callX fn lp)
      && callReturnsError env (.callX fn lp)) = true
  · rw [if_pos hc] at h
    obtain rfl : addErrorAtPosition env sF lp = sF2 := by simpa using h
    obtain ⟨heF, hcaF⟩ := addError_spec env sF lp hcF
    obtain ⟨heT, hcaT⟩ := addError_spec env sT lp hcT
    refine ⟨addErrorAtPosition env sT lp, ?_, hcaF, hcaT, ?_⟩
    · rw [if_pos (by rw [← hig]; exact hc)]
    · rw [heF, heT]
      exact hsub.append (List.Sublist.refl _)
  · rw [if_neg hc] at h
    obtain rfl : sF = sF2 := by simpa using h
    exact ⟨sT, by rw [if_neg (by rw [← hig]; exact hc)], hcF, hcT, hsub⟩

theorem Visit_sim (env : Env) (ig : String → Option (String → Bool)) (ast : Bool)
    (st : Stmt) (hwt : wtStmt env st = true) :
    ∀ (sF sT sF2 : CState), CacheOk env sF.lines → CacheOk env sT.lines →
      sF.errors.Sublist sT.errors →
      Visit env ⟨ig, false, ast⟩ sF st = some sF2 →
      ∃ sT2, Visit env ⟨ig, true, ast⟩ sT st = some sT2 ∧
        CacheOk env sF2.lines ∧ CacheOk env sT2.lines ∧
        sF2.errors.Sublist sT2.errors := by
  intro sF sT sF2 hcF hcT hsub h
  cases st with
  | exprStmt x =>
    cases x with
    | callX fn lp => exact bareCheck_sim env ig ast fn lp sF sT sF2 hcF hcT hsub h
    | identX n p =>
      obtain rfl : sF = sF2 := by simpa [Visit] using h
      exact ⟨sT, rfl, hcF, hcT, hsub⟩
    | selectorX x2 sn sp =>
      obtain rfl : sF = sF2 := by simpa [Visit] using h
      exact ⟨sT, rfl, hcF, hcT, hsub⟩
    | assertX x2 b =>
      obtain rfl : sF = sF2 := by simpa [Visit] using h
      exact ⟨sT, rfl, hcF, hcT, hsub⟩
    | otherX p =>
      obtain rfl : sF = sF2 := by simpa [Visit] using h
      exact ⟨sT, rfl, hcF, hcT, hsub⟩
  | goStmt fn lp => exact bareCheck_sim env ig ast fn lp sF sT sF2 hcF hcT hsub h
  | deferStmt fn lp => exact bareCheck_sim env ig ast fn lp sF sT sF2 hcF hcT hsub h
  | otherS =>
    obtain rfl : sF = sF2 := by simpa [Visit] using h
    exact ⟨sT, rfl, hcF, hcT, hsub⟩
  | assign lhs rhs =>
    cases rhs with
    | nil => exact multiLoop_sim env ig ast [] lhs 0 sF sT sF2 hcF hcT hsub h
    | cons r rest =>
      cases rest with
      | cons r2 rest2 =>
        exact multiLoop_sim env ig ast (r :: r2 :: rest2) lhs 0 sF sT sF2 hcF hcT hsub h
      | nil =>
        cases r with
        | callX fn lp =>
          have hwt2 : wellTypedCallAssign env lhs (.callX fn lp) = true := hwt
          rw [Visit_call_assign_eq] at h
          rw [if_pos (by rfl)] at h
          obtain rfl : sF = sF2 := by simpa using h
          rw [Visit_call_assign_eq]
          rw [if_neg (by simp)]
          by_cases hi : ignoreCall env ⟨ig, true, ast⟩ (.callX fn lp) = true
          · rw [if_pos hi]
            exact ⟨sT, rfl, hcF, hcT, hsub⟩
          · rw [if_neg hi]
            obtain ⟨sT2, hT⟩ :=
              blankLoop_total env (.callX fn lp) (errorsByArg env (.callX fn lp))
                lhs 0 sT (by have := wtCallAssign_le hwt2; omega)
            obtain ⟨hcT2, add, hadd⟩ :=
              blankLoop_mono env (.callX fn lp) (errorsByArg env (.callX fn lp))
                lhs 0 sT sT2 hcT hT
            refine ⟨sT2, hT, hcF, hcT2, ?_⟩
            rw [hadd]
            exact hsub.trans (List.sublist_append_left _ _)
        | assertX x ht =>
          rw [Visit_assert_assign_eq] at h
          rw [Visit_assert_assign_eq]
          by_cases ha : (!ast) = true
          · rw [if_pos ha] at h
            rw [if_pos ha]
            obtain rfl : sF = sF2 := by simpa using h
            exact ⟨sT, rfl, hcF, hcT, hsub⟩
          · rw [if_neg ha] at h
            rw [if_neg ha]
            by_cases hht : (!ht) = true
            · rw [if_pos hht] at h
              rw [if_pos hht]
              obtain rfl : sF = sF2 := by simpa using h
              exact ⟨sT, rfl, hcF, hcT, hsub⟩
            · rw [if_neg hht] at h
              rw [if_neg hht]
              by_cases hl2 : lhs.length < 2
              · rw [if_pos hl2] at h
                rw [if_pos hl2]
                obtain rfl : addErrorAtPosition env sF (Expr.assertX x ht).pos = sF2 := by
                  simpa using h
                obtain ⟨heF, hcaF⟩ := addError_spec env sF (Expr.assertX x ht).pos hcF
                obtain ⟨heT, hcaT⟩ := addError_spec env sT (Expr.assertX x ht).pos hcT
                refine ⟨_, rfl, hcaF, hcaT, ?_⟩
                rw [heF, heT]
                exact hsub.append (List.Sublist.refl _)
              · rw [if_neg hl2] at h
                rw [if_neg hl2]
                cases hl1 : lhs[1]? with
                | none =>
                  rw [hl1] at h
                  simp only [hl1]
                  obtain rfl : sF = sF2 := by simpa using h
                  exact ⟨sT, rfl, hcF, hcT, hsub⟩
                | some e1 =>
                  rw [hl1] at h
                  simp only [hl1]
                  cases e1 with
                  | identX name npos =>
                    simp only [Bool.false_and, Bool.false_eq_true, if_false] at h
                    obtain rfl : sF = sF2 := by simpa using h
                    simp only [Bool.true_and]
                    by_cases hn : (name == "_") = true
                    · rw [if_pos hn]
                      obtain ⟨heT, hcaT⟩ := addError_spec env sT npos hcT
                      refine ⟨_, rfl, hcF, hcaT, ?_⟩
                      rw [heT]
                      exact hsub.trans (List.sublist_append_left _ _)
                    · rw [if_neg hn]
                      exact ⟨sT, rfl, hcF, hcT, hsub⟩
                  | selectorX x2 sn sp =>
                    obtain rfl : sF = sF2 := by simpa using h
                    exact ⟨sT, rfl, hcF, hcT, hsub⟩
                  | callX fn2 lp2 =>
                    obtain rfl : sF = sF2 := by simpa using h
                    exact ⟨sT, rfl, hcF, hcT, hsub⟩
                  | assertX x2 b2 =>
                    obtain rfl : sF = sF2 := by simpa using h
                    exact ⟨sT, rfl, hcF, hcT, hsub⟩
                  | otherX p2 =>
                    obtain rfl : sF = sF2 := by simpa using h
                    exact ⟨sT, rfl, hcF, hcT, hsub⟩
        | identX n p =>
          obtain rfl : sF = sF2 := by simpa [Visit] using h
          exact ⟨sT, rfl, hcF, hcT, hsub⟩
        | selectorX x2 sn sp =>
          obtain rfl : sF = sF2 := by simpa [Visit] using h
          exact ⟨sT, rfl, hcF, hcT, hsub⟩
        | otherX p =>
          obtain rfl : sF = sF2 := by simpa [Visit] using h
          exact ⟨sT, rfl, hcF, hcT, hsub⟩

theorem runUnit_sim (env : Env) (ig : String → Option (String → Bool)) (ast : Bool) :
    ∀ (stmts : List Stmt), (∀ st ∈ stmts, wtStmt env st = true) →
    ∀ (sF sT sF2 : CState), CacheOk env sF.lines → CacheOk env sT.lines →
      sF.errors.Sublist sT.errors →
      runUnit env ⟨ig, false, ast⟩ sF stmts = some sF2 →
      ∃ sT2, runUnit env ⟨ig, true, ast⟩ sT stmts = some sT2 ∧
        CacheOk env sF2.lines ∧ CacheOk env sT2.lines ∧
        sF2.errors.Sublist sT2.errors := by
  intro stmts
  induction stmts with
  | nil =>
    intro hwt sF sT sF2 hcF hcT hsub h
    simp only [runUnit, Option.some.injEq] at h
    exact ⟨sT, rfl, h ▸ hcF, hcT, h ▸ hsub⟩
  | cons st rest ih =>
    intro hwt sF sT sF2 hcF hcT hsub h
    simp only [runUnit] at h
    cases hv : Visit env ⟨ig, false, ast⟩ sF st with
    | none => rw [hv] at h; cases h
    | some sF3 =>
      rw [hv] at h
      obtain ⟨sT3, hT3, hc1, hc2, hs3⟩ :=
        Visit_sim env ig ast st (hwt st (List.mem_cons_self st rest))
          sF sT sF3 hcF hcT hsub hv
      obtain ⟨sT2, hT2, hc3, hc4, hs2⟩ :=
        ih (fun s2 hs => hwt s2 (List.mem_cons_of_mem st hs)) sF3 sT3 sF2 hc1 hc2 hs3 h
      refine ⟨sT2, ?_, hc3, hc4, hs2⟩
      simp only [runUnit, hT3]
      exact hT2

/-- Claim C7: with an otherwise fixed configuration and a well-typed unit,
the diagnostics produced with blank-checking disabled form a sublist (in
particular a subset) of those produced with blank-checking enabled. -/
theorem blank_monotone (env : Env) (ig : String → Option (String → Bool)) (ast : Bool)
    (stmts : List Stmt) (hwt : ∀ st ∈ stmts, wtStmt env st = true)
    (sF : CState) (hF : runUnit env ⟨ig, false, ast⟩ initState stmts = some sF) :
    ∃ sT, runUnit env ⟨ig, true, ast⟩ initState stmts = some sT ∧
      sF.errors.Sublist sT.errors := by
  obtain ⟨sT, hT, -, -, hs⟩ :=
    runUnit_sim env ig ast stmts hwt initState initState sF
      (CacheOk_nil env) (CacheOk_nil env) (List.Sublist.refl _) hF
  exact ⟨sT, hT, hs⟩

def env7 : Env := ⟨fun _ => .namedT ⟨none, "error"⟩, fun _ => none,
  fun _ => ⟨"m.go", 2, 1⟩, fun _ => none⟩

def stmts7 : List Stmt :=
  [.exprStmt (.callX (.identX "f" 1) 2),
   .assign [.identX "_" 9] [.callX (.identX "g" 3) 4]]

theorem blank_monotone_witness :
    ∃ sT, runUnit env7 ⟨fun _ => none, true, false⟩ initState stmts7 = some sT ∧
      (CState.mk [("m.go", [])] [⟨⟨"m.go", 2, 1⟩, "??"⟩]).errors.Sublist sT.errors :=
  blank_monotone env7 (fun _ => none) false stmts7
    (by
      intro st hst
      rcases List.mem_cons.mp hst with rfl | hst2
      · rfl
      · rcases List.mem_cons.mp hst2 with rfl | hst3
        · rfl
        · cases hst3)
    (CState.mk [("m.go", [])] [⟨⟨"m.go", 2, 1⟩, "??"⟩]) rfl
